import Mathlib

/-!
Verification of the binning/aggregation core of the `dkm_analysis`
repository against its specification.

The embedding covers, in exact rational arithmetic:

* the per-metric binning functions of `src/pcap_analyzer/packet_processing.py`
  (shared, up to a hard-coded bin width, with `src/compare.py`):
  `calculate_tcp_packets_per_second`, `calculate_tcp_rtt`,
  `calculate_tcp_throughput`;
* the summary layer of `src/pcap_analyzer/analysis.py`
  (`prepare_packet_rate_data`, `prepare_rtt_data`, and the time-efficiency
  branch of `add_comparison_analysis`);
* the renderer's time normalization from `src/pcap_analyzer/plotting.py`;
* the file-size based sampling policy of `src/compare.py` (`main`);
* the exception dispatch of the extraction `try` blocks.

Timestamps, durations, sampling fractions and metric values are rationals;
`np.nan` (used by the source purely as an "undefined bin" marker) is
modelled as `Option`; Python exceptions and `sys.exit` are modelled by an
explicit outcome type.
-/

namespace DkmAnalysis

/-- Ordering of `(timestamp, value)` rows used by `np.argsort(timestamps)`:
compare by timestamp only. -/
def timeLe (a b : ℚ × ℚ) : Prop := a.1 ≤ b.1

instance : DecidableRel timeLe := fun a b => inferInstanceAs (Decidable (a.1 ≤ b.1))

instance : IsTotal (ℚ × ℚ) timeLe := ⟨fun a b => le_total a.1 b.1⟩

instance : IsTrans (ℚ × ℚ) timeLe := ⟨fun _ _ _ h h' => le_trans h h'⟩

/-- `timestamps.sort()`: ascending sort of the timestamp array. -/
def sortTs (ts : List ℚ) : List ℚ := ts.insertionSort (· ≤ ·)

/-- `np.argsort(timestamps)` applied to the `(timestamp, value)` rows:
stable sort of the rows by timestamp. -/
def sortByTime (rows : List (ℚ × ℚ)) : List (ℚ × ℚ) := rows.insertionSort timeLe

/-- Length of `np.arange(t0, t0 + d + w, w)` in exact arithmetic: the number
of edges `t0 + k·w` (`k = 0, 1, …`) with `t0 + k·w < (t0 + d) + w`. -/
def numEdges (d w : ℚ) : ℕ := (⌈(d + w) / w⌉).toNat

/-- `len(bins) - 1`: the number of histogram bins over the edge grid. -/
def numBins (d w : ℚ) : ℕ := numEdges d w - 1

/-- `bins[:-1] - start_time`: the relative bin-start offsets `k·w`. -/
def binOffsets (w : ℚ) (n : ℕ) : List ℚ := (List.range n).map (fun (k : ℕ) => (k : ℚ) * w)

/-- `np.histogram(x, bins)` membership for bin `i` of `n` over the uniform
edge grid `eₖ = t0 + k·w`: half-open `[eᵢ, eᵢ₊₁)` for every bin but the last,
which is closed on the right (`[eₙ₋₁, eₙ]`). -/
def histBinMem (t0 w : ℚ) (n i : ℕ) (x : ℚ) : Bool :=
  decide (t0 + (i : ℚ) * w ≤ x) &&
    (decide (x < t0 + ((i : ℚ) + 1) * w) ||
      (decide (i + 1 = n) && decide (x ≤ t0 + ((i : ℚ) + 1) * w)))

/-- `np.digitize(x, bins)` over the uniform edge grid with `m` edges:
the number of edges that are `≤ x`. -/
def digitize (t0 w : ℚ) (m : ℕ) (x : ℚ) : ℕ :=
  (List.range m).countP (fun (k : ℕ) => decide (t0 + (k : ℚ) * w ≤ x))

/-- Binning core of `calculate_tcp_packets_per_second` (the part after the
tshark extraction): sort the timestamps, return `([], [])` on empty input,
a single bin `([0.0], [len(timestamps)])` on a non-positive span, and
otherwise histogram-count the samples over `np.arange(t0, t1 + w, w)`,
divide the counts by the sampling fraction `s` when `s < 1`, and divide by
the bin width.  Returns `(relative_bin_starts, packets_per_second)`. -/
def calculate_tcp_packets_per_second (timestamps : List ℚ) (w s : ℚ) :
    List ℚ × List ℚ :=
  match sortTs timestamps with
  | [] => ([], [])
  | t0 :: rest =>
    let t1 := (t0 :: rest).getLast (List.cons_ne_nil _ _)
    if t1 - t0 ≤ 0 then
      ([0], [(timestamps.length : ℚ)])
    else
      let n := numBins (t1 - t0) w
      let counts : List ℚ :=
        (List.range n).map (fun i => ((t0 :: rest).countP (histBinMem t0 w n i) : ℚ))
      let corrected := if s < 1 then counts.map (· / s) else counts
      (binOffsets w n, corrected.map (· / w))

/-- The grouping `[values[digitized == i] for i in range(1, len(bins))]`
shared by the RTT and throughput binning: for each of the `n` bins, the
values of the rows whose digitize index is `i = j + 1` over the `n + 1`
edges. -/
def values_by_time_bin (sorted : List (ℚ × ℚ)) (t0 w : ℚ) (n : ℕ) :
    List (List ℚ) :=
  (List.range n).map (fun j =>
    (sorted.filter (fun p => digitize t0 w (n + 1) p.1 = j + 1)).map Prod.snd)

/-- Binning core of `calculate_tcp_rtt`: sort the `(timestamp, rtt)` rows by
timestamp, return `([], [])` on empty input, a single bin carrying
`np.mean(rtt_values)` on a non-positive span, and otherwise group the rows by
`np.digitize` index over the `n + 1` edges (`i = 1 … len(bins) - 1`), each
bin carrying the mean of its RTT values or `none` (`np.nan`) when empty.
The sampling fraction is not used by the RTT binning. -/
def calculate_tcp_rtt (rows : List (ℚ × ℚ)) (w s : ℚ) :
    List ℚ × List (Option ℚ) :=
  match sortByTime rows with
  | [] => ([], [])
  | p0 :: rest =>
    let sorted := p0 :: rest
    let t0 := p0.1
    let t1 := (sorted.getLast (List.cons_ne_nil _ _)).1
    if t1 - t0 ≤ 0 then
      ([0], [some ((sorted.map Prod.snd).sum / (sorted.length : ℚ))])
    else
      let n := numBins (t1 - t0) w
      (binOffsets w n,
        (values_by_time_bin sorted t0 w n).map
          (fun g => if g.isEmpty then none else some (g.sum / (g.length : ℚ))))

/-- Binning core of `calculate_tcp_throughput`: like the RTT binning but each
bin carries `sum(frame sizes) * 8 / w` (or `0` when empty), divided by the
sampling fraction when `s < 1`; a non-positive span yields a single bin with
the total bits `sum(frame_sizes) * 8`. -/
def calculate_tcp_throughput (rows : List (ℚ × ℚ)) (w s : ℚ) :
    List ℚ × List ℚ :=
  match sortByTime rows with
  | [] => ([], [])
  | p0 :: rest =>
    let sorted := p0 :: rest
    let t0 := p0.1
    let t1 := (sorted.getLast (List.cons_ne_nil _ _)).1
    if t1 - t0 ≤ 0 then
      ([0], [(sorted.map Prod.snd).sum * 8])
    else
      let n := numBins (t1 - t0) w
      let vals := (values_by_time_bin sorted t0 w n).map
        (fun g => if g.isEmpty then (0 : ℚ) else g.sum * 8 / w)
      let corrected := if s < 1 then vals.map (· / s) else vals
      (binOffsets w n, corrected)

/-- `np.mean` of a value list. -/
def listMean (l : List ℚ) : ℚ := l.sum / (l.length : ℚ)

/-- `np.max` (over an already NaN-filtered value list). -/
def listMax : List ℚ → ℚ
  | [] => 0
  | a :: l => l.foldl max a

/-- `np.min` (over an already NaN-filtered value list). -/
def listMin : List ℚ → ℚ
  | [] => 0
  | a :: l => l.foldl min a

/-- `np.median`: the middle element of the sorted values, or the mean of the
two middle elements for an even count. -/
def listMedian (l : List ℚ) : ℚ :=
  let srt := l.insertionSort (· ≤ ·)
  if l.length % 2 = 1 then srt.getD (l.length / 2) 0
  else (srt.getD (l.length / 2 - 1) 0 + srt.getD (l.length / 2) 0) / 2

/-- Per-file record built by `prepare_rtt_data`. -/
structure RttInfo where
  times : List ℚ
  rtt : List (Option ℚ)
  duration : ℚ
  avg_rtt : ℚ
  max_rtt : ℚ
  min_rtt : ℚ
  median_rtt : ℚ
  deriving DecidableEq

/-- Per-file body of `prepare_rtt_data`: skip (`none`) when the series is
empty or no bin holds a defined value; otherwise the statistics
`np.nanmean`, `np.nanmax`, `np.nanmin`, `np.nanmedian` are computed over the
NaN-filtered values and the duration is the final offset. -/
def prepare_rtt_file (times : List ℚ) (rtt : List (Option ℚ)) : Option RttInfo :=
  if times.isEmpty then none
  else
    let valid := rtt.filterMap id
    if valid.isEmpty then none
    else some ⟨times, rtt, times.getLast?.getD 0,
      listMean valid, listMax valid, listMin valid, listMedian valid⟩

/-- Per-file record built by `prepare_packet_rate_data`. -/
structure PpsInfo where
  times : List ℚ
  pps : List ℚ
  duration : ℚ
  avg_pps : ℚ
  max_pps : ℚ
  total_packets : ℚ
  deriving DecidableEq

/-- Per-file body of `prepare_packet_rate_data`: skip when the series is
empty, otherwise record duration (final offset), mean, max and
`np.sum(pps * time_interval)`. -/
def prepare_pps_file (times pps : List ℚ) (w : ℚ) : Option PpsInfo :=
  if times.isEmpty then none
  else some ⟨times, pps, times.getLast?.getD 0,
    listMean pps, listMax pps, (pps.map (· * w)).sum⟩

/-- `prepare_packet_rate_data`: iterate over the files, skipping (with
`continue`) every file whose extraction failed (`None` data) or produced an
empty series, and keep processing the remaining files. -/
def prepare_packet_rate_data (fileData : List (String × Option (List ℚ × List ℚ)))
    (w : ℚ) : List (String × PpsInfo) :=
  fileData.filterMap (fun fd =>
    match fd.2 with
    | none => none
    | some (times, pps) => (prepare_pps_file times pps w).map (fun i => (fd.1, i)))

/-- `plot_packet_rate_comparison`: prepare the per-file data and skip the
whole plot (`none`, "No data to plot") when no file survives preparation. -/
def plot_packet_rate_comparison (fileData : List (String × Option (List ℚ × List ℚ)))
    (w : ℚ) : Option (List (String × PpsInfo)) :=
  let info := prepare_packet_rate_data fileData w
  if info.isEmpty then none else some info

/-- Time normalization of `plot_normalized_view` / `plot_log_scale_view`:
`info['times'] / info['duration'] * 100`, with no guard on a zero duration. -/
def normalized_times (times : List ℚ) (duration : ℚ) : List ℚ :=
  times.map (fun t => t / duration * 100)

/-- Duration recorded by the `prepare_*` functions:
`times[-1] if len(times) > 0 else 0`. -/
def durationOf (times : List ℚ) : ℚ := times.getLast?.getD 0

/-- Time-efficiency branch of `add_comparison_analysis` for exactly two
files: report `(index of the faster file, time difference, time ratio)` only
when the absolute duration difference exceeds 1 second; the reported ratio
is `durations[0] / durations[1]` exactly as in the source. -/
def time_efficiency (d0 d1 : ℚ) : Option (ℕ × ℚ × ℚ) :=
  if 1 < |d0 - d1| then
    some (if d0 < d1 then 0 else 1, |d0 - d1|, d0 / d1)
  else none

/-- File-size based sampling policy of `main` in `src/compare.py`. -/
def sample_rate_for_size (size : ℕ) : ℚ :=
  if size > 1000000000 then 1 / 10
  else if size > 500000000 then 1 / 5
  else if size > 200000000 then 1 / 2
  else 1

/-- A Python exception raised inside an extraction `try` block. -/
inductive PyExc
  | fileNotFound
  | other
  deriving DecidableEq

/-- Observable behaviour of one external-tool invocation. -/
inductive ToolRun (α : Type)
  | raises (e : PyExc)
  | nonzeroExit
  | rows (samples : List α)
  deriving DecidableEq

/-- Result of one per-metric extraction attempt: `fatalExit` models
`sys.exit`, `failure` models the recoverable `return None, None`. -/
inductive ExtractResult (α : Type)
  | fatalExit (code : ℕ)
  | failure
  | success (samples : List α)
  deriving DecidableEq

/-- Extraction dispatch of `calculate_tcp_packets_per_second`:
`except FileNotFoundError: sys.exit(1)`; `except Exception: return None,
None`; a nonzero tool exit status also yields `return None, None`. -/
def pps_extraction (run : ToolRun ℚ) : ExtractResult ℚ :=
  match run with
  | .raises .fileNotFound => .fatalExit 1
  | .raises .other => .failure
  | .nonzeroExit => .failure
  | .rows ts => .success ts

/-- Extraction dispatch of `calculate_tcp_rtt`: its only handler is
`except Exception: return None, None`, which also catches
`FileNotFoundError`. -/
def rtt_extraction (run : ToolRun (ℚ × ℚ)) : ExtractResult (ℚ × ℚ) :=
  match run with
  | .raises _ => .failure
  | .nonzeroExit => .failure
  | .rows ps => .success ps

/-- Extraction dispatch of `calculate_tcp_throughput`: identical handlers to
the RTT extraction. -/
def throughput_extraction (run : ToolRun (ℚ × ℚ)) : ExtractResult (ℚ × ℚ) :=
  match run with
  | .raises _ => .failure
  | .nonzeroExit => .failure
  | .rows ps => .success ps

/-- Modelled from the spec (§4.2, the sentence under test in C2): generate
half-open bins `[t0 + k·w, t0 + (k+1)·w)` for `k = 0, 1, …` until the bin
start exceeds `t1`, and assign every sample to the bin containing its
timestamp; used only to compare the spec's binning rule with the one the
code implements. -/
def specRttBinning (rows : List (ℚ × ℚ)) (w : ℚ) : List ℚ × List (Option ℚ) :=
  match sortByTime rows with
  | [] => ([], [])
  | p0 :: rest =>
    let sorted := p0 :: rest
    let t0 := p0.1
    let t1 := (sorted.getLast (List.cons_ne_nil _ _)).1
    if t1 - t0 ≤ 0 then ([0], [some (listMean (sorted.map Prod.snd))])
    else
      let n := (⌊(t1 - t0) / w⌋).toNat + 1
      let groups := (List.range n).map (fun (k : ℕ) =>
        (sorted.filter (fun p =>
          decide (t0 + (k : ℚ) * w ≤ p.1) && decide (p.1 < t0 + ((k : ℚ) + 1) * w))).map
          Prod.snd)
      (binOffsets w n, groups.map (fun g => if g.isEmpty then none else some (listMean g)))

/-! ### Arithmetic facts about the bin grid -/

lemma numBins_eq {d w : ℚ} (hd : 0 < d) (hw : 0 < w) :
    numBins d w = (⌈d / w⌉).toNat := by
  have hpos : 1 ≤ ⌈d / w⌉ := Int.ceil_pos.mpr (div_pos hd hw)
  unfold numBins numEdges
  rw [add_div, div_self (ne_of_gt hw), Int.ceil_add_one]
  omega

lemma lt_numBins_iff {d w : ℚ} (hd : 0 < d) (hw : 0 < w) (k : ℕ) :
    k < numBins d w ↔ (k : ℚ) * w < d := by
  rw [numBins_eq hd hw, Int.lt_toNat, Int.lt_ceil, lt_div_iff₀ hw]
  push_cast
  exact Iff.rfl

lemma le_numBins_mul {d w : ℚ} (hd : 0 < d) (hw : 0 < w) :
    d ≤ (numBins d w : ℚ) * w := by
  have h := Int.le_ceil (d / w)
  have hc : ((numBins d w : ℕ) : ℚ) = ((⌈d / w⌉ : ℤ) : ℚ) := by
    rw [numBins_eq hd hw]
    have : 0 ≤ ⌈d / w⌉ := le_of_lt (Int.ceil_pos.mpr (div_pos hd hw))
    exact_mod_cast congrArg (fun z : ℤ => (z : ℚ)) (Int.toNat_of_nonneg this)
  rw [hc]
  exact (div_le_iff₀ hw).mp h

lemma numBins_pos {d w : ℚ} (hd : 0 < d) (hw : 0 < w) : 0 < numBins d w := by
  rw [lt_numBins_iff hd hw]
  simpa using hd

/-! ### Sorted-list bounds -/

lemma sorted_head_le {a : ℚ} {l : List ℚ} (h : (a :: l).Sorted (· ≤ ·)) :
    ∀ x ∈ a :: l, a ≤ x := by
  intro x hx
  rcases List.mem_cons.mp hx with rfl | hx
  · exact le_refl x
  · exact (List.sorted_cons.mp h).1 x hx

lemma sorted_le_getLast {l : List ℚ} (h : l.Sorted (· ≤ ·)) (hne : l ≠ []) :
    ∀ x ∈ l, x ≤ l.getLast hne := by
  induction l with
  | nil => exact absurd rfl hne
  | cons a t ih =>
    intro x hx
    cases t with
    | nil =>
      simp only [List.mem_singleton] at hx
      simp [hx]
    | cons b t' =>
      rw [List.getLast_cons (List.cons_ne_nil b t')]
      rcases List.mem_cons.mp hx with rfl | hx
      · calc x ≤ b := (List.sorted_cons.mp h).1 b (List.mem_cons_self b t')
          _ ≤ (b :: t').getLast (List.cons_ne_nil b t') :=
            ih (List.sorted_cons.mp h).2 (List.cons_ne_nil b t') b (List.mem_cons_self b t')
      · exact ih (List.sorted_cons.mp h).2 (List.cons_ne_nil b t') x hx

lemma sortedTime_head_le {p : ℚ × ℚ} {l : List (ℚ × ℚ)} (h : (p :: l).Sorted timeLe) :
    ∀ q ∈ p :: l, p.1 ≤ q.1 := by
  intro q hq
  rcases List.mem_cons.mp hq with rfl | hq
  · exact le_refl q.1
  · exact (List.sorted_cons.mp h).1 q hq

lemma sortedTime_le_getLast {l : List (ℚ × ℚ)} (h : l.Sorted timeLe) (hne : l ≠ []) :
    ∀ q ∈ l, q.1 ≤ (l.getLast hne).1 := by
  induction l with
  | nil => exact absurd rfl hne
  | cons a t ih =>
    intro q hq
    cases t with
    | nil =>
      simp only [List.mem_singleton] at hq
      simp [hq]
    | cons b t' =>
      rw [List.getLast_cons (List.cons_ne_nil b t')]
      rcases List.mem_cons.mp hq with rfl | hq
      · calc q.1 ≤ b.1 := (List.sorted_cons.mp h).1 b (List.mem_cons_self b t')
          _ ≤ ((b :: t').getLast (List.cons_ne_nil b t')).1 :=
            ih (List.sorted_cons.mp h).2 (List.cons_ne_nil b t') b (List.mem_cons_self b t')
      · exact ih (List.sorted_cons.mp h).2 (List.cons_ne_nil b t') q hq

lemma sortTs_sorted (ts : List ℚ) : (sortTs ts).Sorted (· ≤ ·) :=
  List.sorted_insertionSort _ ts

lemma sortTs_perm (ts : List ℚ) : (sortTs ts).Perm ts :=
  List.perm_insertionSort _ ts

lemma sortByTime_sorted (rows : List (ℚ × ℚ)) : (sortByTime rows).Sorted timeLe :=
  List.sorted_insertionSort _ rows

lemma sortByTime_perm (rows : List (ℚ × ℚ)) : (sortByTime rows).Perm rows :=
  List.perm_insertionSort _ rows

/-! ### Counting helpers -/

lemma sum_map_add' {β : Type} (L : List β) (f g : β → ℕ) :
    (L.map (fun b => f b + g b)).sum = (L.map f).sum + (L.map g).sum := by
  induction L with
  | nil => simp
  | cons a t ih => simp [ih]; omega

lemma sum_ite_count {β : Type} (L : List β) (q : β → Bool) :
    (L.map (fun b => if q b then 1 else 0)).sum = L.countP q := by
  induction L with
  | nil => simp
  | cons a t ih =>
    by_cases h : q a <;> simp [List.countP_cons, h, ih] <;> omega

lemma sum_map_countP {α : Type} (l : List α) (n : ℕ) (p : ℕ → α → Bool)
    (h : ∀ x ∈ l, ((List.range n).countP (fun i => p i x)) = 1) :
    ((List.range n).map (fun i => (l.countP (p i)))).sum = l.length := by
  induction l with
  | nil => simp
  | cons a t ih =>
    have ht : ((List.range n).map (fun i => t.countP (p i))).sum = t.length :=
      ih (fun x hx => h x (List.mem_cons_of_mem a hx))
    have ha := h a (List.mem_cons_self a t)
    simp only [List.countP_cons]
    rw [sum_map_add' (List.range n) (fun i => t.countP (p i)) (fun i => if p i a then 1 else 0),
      ht, sum_ite_count (List.range n) (fun i => p i a), ha]
    simp

lemma countP_range_unique {n j : ℕ} (p : ℕ → Bool) (hj : j < n)
    (h : ∀ i < n, (p i = true ↔ i = j)) : (List.range n).countP p = 1 := by
  induction n with
  | zero => omega
  | succ m ih =>
    rw [List.range_succ, List.countP_append]
    rcases Nat.lt_or_ge j m with hjm | hjm
    · have h1 : (List.range m).countP p = 1 := ih hjm (fun i hi => h i (Nat.lt_succ_of_lt hi))
      have h2 : p m = false := by
        have hm := h m (Nat.lt_succ_self m)
        cases hpm : p m with
        | false => rfl
        | true => exact absurd (hm.mp hpm) (by omega)
      simp [h1, h2]
    · have hjm' : j = m := by omega
      subst hjm'
      have h1 : (List.range j).countP p = 0 := by
        rw [List.countP_eq_zero]
        intro a ha
        have haj : a < j := List.mem_range.mp ha
        intro hpa
        exact absurd ((h a (Nat.lt_succ_of_lt haj)).mp hpa) (by omega)
      have h2 : p j = true := (h j (Nat.lt_succ_self j)).mpr rfl
      simp [h1, h2]

lemma countP_range_downclosed {m c : ℕ} (p : ℕ → Bool)
    (h : ∀ k, p k = true ↔ k ≤ c) : (List.range m).countP p = min (c + 1) m := by
  induction m with
  | zero => simp
  | succ m' ih =>
    rw [List.range_succ, List.countP_append, ih]
    rcases le_or_lt m' c with hm | hm
    · have hpt : p m' = true := (h m').mpr hm
      simp [hpt]
      omega
    · have hpf : p m' = false := by
        cases hpm : p m' with
        | false => rfl
        | true => exact absurd ((h m').mp hpm) (by omega)
      simp [hpf]
      omega

/-! ### Bin membership characterizations -/

lemma floor_bin_iff {t0 w x : ℚ} (hw : 0 < w) (i : ℤ) :
    (t0 + (i : ℚ) * w ≤ x ∧ x < t0 + ((i : ℚ) + 1) * w) ↔ ⌊(x - t0) / w⌋ = i := by
  rw [Int.floor_eq_iff]
  constructor
  · rintro ⟨h1, h2⟩
    constructor
    · rw [le_div_iff₀ hw]
      linarith
    · rw [div_lt_iff₀ hw]
      push_cast
      linarith
  · rintro ⟨h1, h2⟩
    rw [le_div_iff₀ hw] at h1
    rw [div_lt_iff₀ hw] at h2
    push_cast at h2
    constructor <;> linarith

lemma histBinMem_iff {t0 w x : ℚ} (hw : 0 < w) {n i : ℕ} (hi : i < n)
    (hxn : x ≤ t0 + (n : ℚ) * w) :
    histBinMem t0 w n i x = true ↔ min ⌊(x - t0) / w⌋ ((n : ℤ) - 1) = (i : ℤ) := by
  unfold histBinMem
  simp only [Bool.and_eq_true, Bool.or_eq_true, decide_eq_true_eq]
  constructor
  · rintro ⟨h1, h2 | ⟨h2, h3⟩⟩
    · have hF : ⌊(x - t0) / w⌋ = (i : ℤ) :=
        (floor_bin_iff hw (i : ℤ)).mp ⟨by push_cast; linarith, by push_cast; linarith⟩
      rw [hF]
      omega
    · have hiF : (i : ℤ) ≤ ⌊(x - t0) / w⌋ := by
        rw [Int.le_floor, le_div_iff₀ hw]
        push_cast
        linarith
      omega
  · intro hmin
    rcases le_or_lt ⌊(x - t0) / w⌋ ((n : ℤ) - 1) with hc | hc
    · have hF : ⌊(x - t0) / w⌋ = (i : ℤ) := by omega
      have := (floor_bin_iff hw (i : ℤ)).mpr hF
      push_cast at this
      exact ⟨this.1, Or.inl this.2⟩
    · have hin : (i : ℤ) = (n : ℤ) - 1 := by omega
      have hrge : ((n : ℚ) - 1) ≤ (x - t0) / w := by
        calc ((n : ℚ) - 1) ≤ (⌊(x - t0) / w⌋ : ℚ) := by
              have : (n : ℤ) - 1 ≤ ⌊(x - t0) / w⌋ := by omega
              exact_mod_cast this
          _ ≤ (x - t0) / w := Int.floor_le _
      rw [le_div_iff₀ hw] at hrge
      have h1 : t0 + (i : ℚ) * w ≤ x := by
        have : ((i : ℚ)) = (n : ℚ) - 1 := by exact_mod_cast hin
        rw [this]
        linarith
      have h2 : i + 1 = n := by omega
      refine ⟨h1, Or.inr ⟨h2, ?_⟩⟩
      have : ((i : ℚ) + 1) = (n : ℚ) := by
        have := congrArg (fun z : ℤ => (z : ℚ)) hin
        push_cast at this
        linarith
      rw [this]
      exact hxn

lemma histBinMem_count_one {t0 w x : ℚ} (hw : 0 < w) {n : ℕ} (hn : 0 < n)
    (hx0 : t0 ≤ x) (hxn : x ≤ t0 + (n : ℚ) * w) :
    (List.range n).countP (fun i => histBinMem t0 w n i x) = 1 := by
  have hF0 : 0 ≤ ⌊(x - t0) / w⌋ := Int.floor_nonneg.mpr (div_nonneg (by linarith) hw.le)
  refine countP_range_unique _ (j := min (⌊(x - t0) / w⌋).toNat (n - 1)) (by omega) ?_
  intro i hi
  rw [histBinMem_iff hw hi hxn]
  omega

lemma digitize_eq {t0 w x : ℚ} (hw : 0 < w) (m : ℕ) (hx : t0 ≤ x) :
    digitize t0 w m x = min ((⌊(x - t0) / w⌋).toNat + 1) m := by
  have hF0 : 0 ≤ ⌊(x - t0) / w⌋ := Int.floor_nonneg.mpr (div_nonneg (by linarith) hw.le)
  unfold digitize
  refine countP_range_downclosed _ (fun k => ?_)
  simp only [decide_eq_true_eq]
  rw [show t0 + (k : ℚ) * w ≤ x ↔ (k : ℚ) ≤ (x - t0) / w by rw [le_div_iff₀ hw]; constructor <;> intro <;> linarith]
  rw [show ((k : ℚ) ≤ (x - t0) / w) ↔ ((k : ℤ) ≤ ⌊(x - t0) / w⌋) by rw [Int.le_floor]; push_cast; exact Iff.rfl]
  omega

lemma digitize_eq_iff {t0 w x : ℚ} (hw : 0 < w) (hx : t0 ≤ x) {n j : ℕ} (hj : j < n) :
    (digitize t0 w (n + 1) x = j + 1) ↔ ⌊(x - t0) / w⌋ = (j : ℤ) := by
  have hF0 : 0 ≤ ⌊(x - t0) / w⌋ := Int.floor_nonneg.mpr (div_nonneg (by linarith) hw.le)
  rw [digitize_eq hw (n + 1) hx]
  omega

/-! ### Claim theorems (first batch) -/

/-- C8: the sampling fraction chosen for a file is a pure function of its
byte size: above 1 GB it is 1/10, above 500 MB it is 1/5, above 200 MB it is
1/2, otherwise 1 — and for every size exactly one of the four applies. -/
theorem sample_rate_policy (size : ℕ) :
    (sample_rate_for_size size = 1 / 10 ↔ 1000000000 < size) ∧
    (sample_rate_for_size size = 1 / 5 ↔ (500000000 < size ∧ size ≤ 1000000000)) ∧
    (sample_rate_for_size size = 1 / 2 ↔ (200000000 < size ∧ size ≤ 500000000)) ∧
    (sample_rate_for_size size = 1 ↔ size ≤ 200000000) := by
  unfold sample_rate_for_size
  split_ifs with h1 h2 h3 <;> norm_num <;> omega

/-- C6 counterexample: when the external tool is missing, the RTT extractor
does not abort; its generic handler returns the recoverable per-metric
failure marker (`return None, None`), which differs from the fatal
`sys.exit(1)` outcome. -/
theorem missing_tool_rtt_not_fatal :
    rtt_extraction (ToolRun.raises PyExc.fileNotFound) = ExtractResult.failure ∧
    (ExtractResult.failure : ExtractResult (ℚ × ℚ)) ≠ ExtractResult.fatalExit 1 := by
  exact ⟨rfl, by simp⟩

/-- C6 amended: only the packet-rate extractor treats a missing external tool
as fatal (`sys.exit(1)`); the RTT and throughput extractors catch it with
their generic handler and return the recoverable per-metric failure marker. -/
theorem missing_tool_dispatch :
    pps_extraction (ToolRun.raises PyExc.fileNotFound) = ExtractResult.fatalExit 1 ∧
    rtt_extraction (ToolRun.raises PyExc.fileNotFound) = ExtractResult.failure ∧
    throughput_extraction (ToolRun.raises PyExc.fileNotFound) = ExtractResult.failure :=
  ⟨rfl, rfl, rfl⟩

/-- C7: with durations 10 s and 20 s the difference (10 s) exceeds the 1 s
threshold and the first file is named faster, but the reported ratio is
`durations[0] / durations[1] = 1/2`, not the ratio of the longer to the
shorter duration (`20/10 = 2`). -/
theorem time_efficiency_ratio_bug :
    time_efficiency 10 20 = some (0, 10, 1 / 2) ∧ ((1 : ℚ) / 2) ≠ 20 / 10 := by
  constructor
  · unfold time_efficiency
    norm_num
  · norm_num

/-! ### Case-analysis lemmas for the three binning functions -/

lemma calcPPS_empty {ts : List ℚ} {w s : ℚ} (hS : sortTs ts = []) :
    calculate_tcp_packets_per_second ts w s = ([], []) := by
  unfold calculate_tcp_packets_per_second
  rw [hS]

lemma calcPPS_degenerate {ts : List ℚ} {w s t0 : ℚ} {rest : List ℚ}
    (hS : sortTs ts = t0 :: rest)
    (hdeg : (t0 :: rest).getLast (List.cons_ne_nil _ _) - t0 ≤ 0) :
    calculate_tcp_packets_per_second ts w s = ([0], [(ts.length : ℚ)]) := by
  unfold calculate_tcp_packets_per_second
  rw [hS]
  simp only [if_pos hdeg]

lemma calcPPS_regular {ts : List ℚ} {w s t0 t1 : ℚ} {rest : List ℚ} {n : ℕ}
    (hS : sortTs ts = t0 :: rest)
    (hT : (t0 :: rest).getLast (List.cons_ne_nil _ _) = t1)
    (hN : numBins (t1 - t0) w = n)
    (hpos : 0 < t1 - t0) :
    calculate_tcp_packets_per_second ts w s =
      (binOffsets w n,
        (List.range n).map (fun i =>
          (if s < 1 then ((t0 :: rest).countP (histBinMem t0 w n i) : ℚ) / s
           else ((t0 :: rest).countP (histBinMem t0 w n i) : ℚ)) / w)) := by
  unfold calculate_tcp_packets_per_second
  rw [hS]
  simp only [hT, if_neg (not_le.mpr hpos), hN]
  by_cases hs : s < 1
  · simp [hs, List.map_map, Function.comp]
  · simp [hs, List.map_map, Function.comp]

lemma calcRTT_empty {rows : List (ℚ × ℚ)} {w s : ℚ} (hS : sortByTime rows = []) :
    calculate_tcp_rtt rows w s = ([], []) := by
  unfold calculate_tcp_rtt
  rw [hS]

lemma calcRTT_degenerate {rows : List (ℚ × ℚ)} {w s : ℚ} {p0 : ℚ × ℚ}
    {rest : List (ℚ × ℚ)} (hS : sortByTime rows = p0 :: rest)
    (hdeg : ((p0 :: rest).getLast (List.cons_ne_nil _ _)).1 - p0.1 ≤ 0) :
    calculate_tcp_rtt rows w s =
      ([0], [some (((p0 :: rest).map Prod.snd).sum / ((p0 :: rest).length : ℚ))]) := by
  unfold calculate_tcp_rtt
  rw [hS]
  simp only [if_pos hdeg]

lemma calcRTT_regular {rows : List (ℚ × ℚ)} {w s t1 : ℚ} {p0 : ℚ × ℚ}
    {rest : List (ℚ × ℚ)} {n : ℕ} (hS : sortByTime rows = p0 :: rest)
    (hT : ((p0 :: rest).getLast (List.cons_ne_nil _ _)).1 = t1)
    (hN : numBins (t1 - p0.1) w = n)
    (hpos : 0 < t1 - p0.1) :
    calculate_tcp_rtt rows w s =
      (binOffsets w n,
        (values_by_time_bin (p0 :: rest) p0.1 w n).map
          (fun g => if g.isEmpty then none else some (g.sum / (g.length : ℚ)))) := by
  unfold calculate_tcp_rtt
  rw [hS]
  simp only [hT, if_neg (not_le.mpr hpos), hN]

lemma calcThroughput_empty {rows : List (ℚ × ℚ)} {w s : ℚ}
    (hS : sortByTime rows = []) :
    calculate_tcp_throughput rows w s = ([], []) := by
  unfold calculate_tcp_throughput
  rw [hS]

lemma calcThroughput_degenerate {rows : List (ℚ × ℚ)} {w s : ℚ} {p0 : ℚ × ℚ}
    {rest : List (ℚ × ℚ)} (hS : sortByTime rows = p0 :: rest)
    (hdeg : ((p0 :: rest).getLast (List.cons_ne_nil _ _)).1 - p0.1 ≤ 0) :
    calculate_tcp_throughput rows w s =
      ([0], [((p0 :: rest).map Prod.snd).sum * 8]) := by
  unfold calculate_tcp_throughput
  rw [hS]
  simp only [if_pos hdeg]

lemma calcThroughput_regular {rows : List (ℚ × ℚ)} {w s t1 : ℚ} {p0 : ℚ × ℚ}
    {rest : List (ℚ × ℚ)} {n : ℕ} (hS : sortByTime rows = p0 :: rest)
    (hT : ((p0 :: rest).getLast (List.cons_ne_nil _ _)).1 = t1)
    (hN : numBins (t1 - p0.1) w = n)
    (hpos : 0 < t1 - p0.1) :
    calculate_tcp_throughput rows w s =
      (binOffsets w n,
        (values_by_time_bin (p0 :: rest) p0.1 w n).map (fun g =>
          (if s < 1 then (if g.isEmpty then (0 : ℚ) else g.sum * 8 / w) / s
           else (if g.isEmpty then (0 : ℚ) else g.sum * 8 / w)))) := by
  unfold calculate_tcp_throughput
  rw [hS]
  simp only [hT, if_neg (not_le.mpr hpos), hN]
  by_cases hs : s < 1
  · simp [hs, List.map_map, Function.comp]
  · simp [hs, List.map_map, Function.comp]

/-! ### Offsets helpers -/

lemma binOffsets_length (w : ℚ) (n : ℕ) : (binOffsets w n).length = n := by
  simp [binOffsets]

lemma binOffsets_head {w : ℚ} {n : ℕ} (hn : 0 < n) :
    (binOffsets w n).head? = some 0 := by
  cases n with
  | zero => omega
  | succ m =>
    rw [binOffsets, List.range_succ_eq_map]
    simp

lemma binOffsets_chain (w : ℚ) (hw : 0 < w) (n : ℕ) :
    (binOffsets w n).Chain' (fun a b => a < b ∧ b = a + w) := by
  rw [List.chain'_iff_get]
  intro i hi
  rw [binOffsets_length] at hi
  have h1 : i < (List.range n).length := by simp; omega
  have h2 : i + 1 < (List.range n).length := by simp; omega
  simp only [binOffsets, List.get_eq_getElem, List.getElem_map, List.getElem_range]
  constructor
  · have : (i : ℚ) < (i : ℚ) + 1 := by linarith
    push_cast
    nlinarith
  · push_cast
    ring

/-- A membership transfer: elements of the sorted list are elements of the
input and vice versa. -/
lemma mem_sortTs {ts : List ℚ} {x : ℚ} : x ∈ sortTs ts ↔ x ∈ ts :=
  (sortTs_perm ts).mem_iff

lemma mem_sortByTime {rows : List (ℚ × ℚ)} {p : ℚ × ℚ} :
    p ∈ sortByTime rows ↔ p ∈ rows :=
  (sortByTime_perm rows).mem_iff


lemma sortTs_eq_nil {ts : List ℚ} (hS : sortTs ts = []) : ts = [] := by
  have h := sortTs_perm ts
  rw [hS] at h
  exact List.perm_nil.mp h.symm

lemma sortByTime_eq_nil {rows : List (ℚ × ℚ)} (hS : sortByTime rows = []) : rows = [] := by
  have h := sortByTime_perm rows
  rw [hS] at h
  exact List.perm_nil.mp h.symm

/-! ### C5: degenerate span -/

lemma calcPPS_const (ts : List ℚ) (w s c : ℚ) (hts : ts ≠ [])
    (hall : ∀ x ∈ ts, x = c) :
    calculate_tcp_packets_per_second ts w s = ([0], [(ts.length : ℚ)]) := by
  cases hS : sortTs ts with
  | nil => exact absurd (sortTs_eq_nil hS) hts
  | cons t0 rest =>
    have hmem : ∀ x ∈ t0 :: rest, x = c := by
      intro x hx
      rw [← hS] at hx
      exact hall x (mem_sortTs.mp hx)
    have ht0 : t0 = c := hmem t0 (List.mem_cons_self t0 rest)
    have hlast : (t0 :: rest).getLast (List.cons_ne_nil _ _) = c :=
      hmem _ (List.getLast_mem _)
    exact calcPPS_degenerate hS (by rw [hlast, ht0]; simp)

lemma calcRTT_const (rows : List (ℚ × ℚ)) (w s c : ℚ) (hrows : rows ≠ [])
    (hrall : ∀ p ∈ rows, p.1 = c) :
    calculate_tcp_rtt rows w s
      = ([0], [some ((rows.map Prod.snd).sum / (rows.length : ℚ))]) := by
  cases hS : sortByTime rows with
  | nil => exact absurd (sortByTime_eq_nil hS) hrows
  | cons p0 rest =>
    have hmem : ∀ p ∈ p0 :: rest, p.1 = c := by
      intro p hp
      rw [← hS] at hp
      exact hrall p (mem_sortByTime.mp hp)
    have ht0 : p0.1 = c := hmem p0 (List.mem_cons_self p0 rest)
    have hlast : ((p0 :: rest).getLast (List.cons_ne_nil _ _)).1 = c :=
      hmem _ (List.getLast_mem _)
    rw [calcRTT_degenerate hS (by rw [hlast, ht0]; simp)]
    have hperm := sortByTime_perm rows
    rw [hS] at hperm
    rw [(hperm.map Prod.snd).sum_eq, hperm.length_eq]

lemma calcThroughput_const (frames : List (ℚ × ℚ)) (w s c : ℚ)
    (hframes : frames ≠ []) (hfall : ∀ p ∈ frames, p.1 = c) :
    calculate_tcp_throughput frames w s
      = ([0], [(frames.map Prod.snd).sum * 8]) := by
  cases hS : sortByTime frames with
  | nil => exact absurd (sortByTime_eq_nil hS) hframes
  | cons p0 rest =>
    have hmem : ∀ p ∈ p0 :: rest, p.1 = c := by
      intro p hp
      rw [← hS] at hp
      exact hfall p (mem_sortByTime.mp hp)
    have ht0 : p0.1 = c := hmem p0 (List.mem_cons_self p0 rest)
    have hlast : ((p0 :: rest).getLast (List.cons_ne_nil _ _)).1 = c :=
      hmem _ (List.getLast_mem _)
    rw [calcThroughput_degenerate hS (by rw [hlast, ht0]; simp)]
    have hperm := sortByTime_perm frames
    rw [hS] at hperm
    rw [(hperm.map Prod.snd).sum_eq]

/-- C5: on a non-empty sample sequence whose timestamps all coincide, each of
the three binning functions emits exactly one bin at offset 0 carrying the
metric-specific reduction over the full sample set: the raw sample count for
the packet rate, the arithmetic mean of the values for RTT, and the total of
the values times 8 for throughput. -/
theorem degenerate_single_bin (ts : List ℚ) (rows frames : List (ℚ × ℚ))
    (w s c : ℚ) (hts : ts ≠ []) (hall : ∀ x ∈ ts, x = c)
    (hrows : rows ≠ []) (hrall : ∀ p ∈ rows, p.1 = c)
    (hframes : frames ≠ []) (hfall : ∀ p ∈ frames, p.1 = c) :
    calculate_tcp_packets_per_second ts w s = ([0], [(ts.length : ℚ)]) ∧
    calculate_tcp_rtt rows w s
      = ([0], [some ((rows.map Prod.snd).sum / (rows.length : ℚ))]) ∧
    calculate_tcp_throughput frames w s
      = ([0], [(frames.map Prod.snd).sum * 8]) :=
  ⟨calcPPS_const ts w s c hts hall, calcRTT_const rows w s c hrows hrall,
   calcThroughput_const frames w s c hframes hfall⟩

/-! ### C3: offsets invariant -/

lemma offsets_shape_pps (ts : List ℚ) (w s : ℚ) (hw : 0 < w) (hts : ts ≠ []) :
    (calculate_tcp_packets_per_second ts w s).1 = [0] ∨
    ∃ n : ℕ, 0 < n ∧ (calculate_tcp_packets_per_second ts w s).1 = binOffsets w n := by
  cases hS : sortTs ts with
  | nil => exact absurd (sortTs_eq_nil hS) hts
  | cons t0 rest =>
    rcases le_or_lt ((t0 :: rest).getLast (List.cons_ne_nil _ _) - t0) 0 with hdeg | hpos
    · rw [calcPPS_degenerate hS hdeg]
      exact Or.inl rfl
    · right
      refine ⟨numBins ((t0 :: rest).getLast (List.cons_ne_nil _ _) - t0) w,
        numBins_pos hpos hw, ?_⟩
      rw [calcPPS_regular hS rfl rfl hpos]

lemma offsets_shape_rtt (rows : List (ℚ × ℚ)) (w s : ℚ) (hw : 0 < w)
    (hrows : rows ≠ []) :
    (calculate_tcp_rtt rows w s).1 = [0] ∨
    ∃ n : ℕ, 0 < n ∧ (calculate_tcp_rtt rows w s).1 = binOffsets w n := by
  cases hS : sortByTime rows with
  | nil => exact absurd (sortByTime_eq_nil hS) hrows
  | cons p0 rest =>
    rcases le_or_lt (((p0 :: rest).getLast (List.cons_ne_nil _ _)).1 - p0.1) 0 with hdeg | hpos
    · rw [calcRTT_degenerate hS hdeg]
      exact Or.inl rfl
    · right
      refine ⟨numBins (((p0 :: rest).getLast (List.cons_ne_nil _ _)).1 - p0.1) w,
        numBins_pos hpos hw, ?_⟩
      rw [calcRTT_regular hS rfl rfl hpos]

lemma offsets_shape_throughput (rows : List (ℚ × ℚ)) (w s : ℚ) (hw : 0 < w)
    (hrows : rows ≠ []) :
    (calculate_tcp_throughput rows w s).1 = [0] ∨
    ∃ n : ℕ, 0 < n ∧ (calculate_tcp_throughput rows w s).1 = binOffsets w n := by
  cases hS : sortByTime rows with
  | nil => exact absurd (sortByTime_eq_nil hS) hrows
  | cons p0 rest =>
    rcases le_or_lt (((p0 :: rest).getLast (List.cons_ne_nil _ _)).1 - p0.1) 0 with hdeg | hpos
    · rw [calcThroughput_degenerate hS hdeg]
      exact Or.inl rfl
    · right
      refine ⟨numBins (((p0 :: rest).getLast (List.cons_ne_nil _ _)).1 - p0.1) w,
        numBins_pos hpos hw, ?_⟩
      rw [calcThroughput_regular hS rfl rfl hpos]

lemma offsets_invariant_of_shape {l : List ℚ} {w : ℚ} (hw : 0 < w)
    (h : l = [0] ∨ ∃ n : ℕ, 0 < n ∧ l = binOffsets w n) :
    l.head? = some 0 ∧ l.Chain' (fun a b => a < b ∧ b = a + w) := by
  rcases h with h | ⟨n, hn, h⟩
  · subst h
    exact ⟨rfl, List.chain'_singleton 0⟩
  · subst h
    exact ⟨binOffsets_head hn, binOffsets_chain w hw n⟩

/-- C3: for every non-empty input, each of the three binning functions
returns offsets that start at 0, are strictly increasing, and advance in
steps of exactly the configured bin width `w` (so the spacing is uniform;
the final bin simply has no successor). -/
theorem offsets_invariant (ts : List ℚ) (rows frames : List (ℚ × ℚ)) (w s : ℚ)
    (hw : 0 < w) (hts : ts ≠ []) (hrows : rows ≠ []) (hframes : frames ≠ []) :
    ((calculate_tcp_packets_per_second ts w s).1.head? = some 0 ∧
      (calculate_tcp_packets_per_second ts w s).1.Chain' (fun a b => a < b ∧ b = a + w)) ∧
    ((calculate_tcp_rtt rows w s).1.head? = some 0 ∧
      (calculate_tcp_rtt rows w s).1.Chain' (fun a b => a < b ∧ b = a + w)) ∧
    ((calculate_tcp_throughput frames w s).1.head? = some 0 ∧
      (calculate_tcp_throughput frames w s).1.Chain' (fun a b => a < b ∧ b = a + w)) :=
  ⟨offsets_invariant_of_shape hw (offsets_shape_pps ts w s hw hts),
   offsets_invariant_of_shape hw (offsets_shape_rtt rows w s hw hrows),
   offsets_invariant_of_shape hw (offsets_shape_throughput frames w s hw hframes)⟩

/-! ### C1: count conservation -/

lemma sum_map_natCast {β : Type} (L : List β) (f : β → ℕ) :
    (L.map (fun b => ((f b : ℕ) : ℚ))).sum = (((L.map f).sum : ℕ) : ℚ) := by
  induction L with
  | nil => simp
  | cons a t ih => simp [ih]

/-- C1: for a non-empty timestamp list with positive span, a positive bin
width, and any sampling fraction `s ∈ (0, 1]`, multiplying every packet-rate
bin value by `bin width × s` and summing recovers exactly the number of
input samples. -/
theorem pps_count_conservation (ts : List ℚ) (w s : ℚ) (hw : 0 < w)
    (hs0 : 0 < s) (hs1 : s ≤ 1)
    (hspan : ∃ a ∈ ts, ∃ b ∈ ts, a < b) :
    ((calculate_tcp_packets_per_second ts w s).2.map (fun v => v * w * s)).sum
      = (ts.length : ℚ) := by
  obtain ⟨a, ha, b, hb, hab⟩ := hspan
  cases hS : sortTs ts with
  | nil =>
    rw [sortTs_eq_nil hS] at ha
    exact absurd ha (List.not_mem_nil a)
  | cons t0 rest =>
    have hsorted : (t0 :: rest).Sorted (· ≤ ·) := hS ▸ sortTs_sorted ts
    have ha' : a ∈ t0 :: rest := hS ▸ mem_sortTs.mpr ha
    have hb' : b ∈ t0 :: rest := hS ▸ mem_sortTs.mpr hb
    have hpos : 0 < (t0 :: rest).getLast (List.cons_ne_nil _ _) - t0 := by
      have h1 : t0 ≤ a := sorted_head_le hsorted a ha'
      have h2 : b ≤ (t0 :: rest).getLast (List.cons_ne_nil _ _) :=
        sorted_le_getLast hsorted (List.cons_ne_nil _ _) b hb'
      linarith
    rw [calcPPS_regular hS rfl rfl hpos]
    set t1 := (t0 :: rest).getLast (List.cons_ne_nil _ _) with hT
    set n := numBins (t1 - t0) w with hN
    rw [List.map_map]
    have hptwise : ∀ i : ℕ,
        ((fun v => v * w * s) ∘ fun i =>
          (if s < 1 then ((t0 :: rest).countP (histBinMem t0 w n i) : ℚ) / s
           else ((t0 :: rest).countP (histBinMem t0 w n i) : ℚ)) / w) i
        = (((t0 :: rest).countP (histBinMem t0 w n i) : ℕ) : ℚ) := by
      intro i
      simp only [Function.comp]
      by_cases hlt : s < 1
      · rw [if_pos hlt]
        field_simp
        ring
      · rw [if_neg hlt]
        have : s = 1 := le_antisymm hs1 (not_lt.mp hlt)
        rw [this]
        field_simp
    rw [List.map_congr_left (fun i _ => hptwise i)]
    rw [sum_map_natCast]
    have hcount : ((List.range n).map
        (fun i => (t0 :: rest).countP (histBinMem t0 w n i))).sum
        = (t0 :: rest).length := by
      refine sum_map_countP (t0 :: rest) n _ (fun x hx => ?_)
      have hx0 : t0 ≤ x := sorted_head_le hsorted x hx
      have hx1 : x ≤ t1 := sorted_le_getLast hsorted (List.cons_ne_nil _ _) x hx
      have hxn : x ≤ t0 + (n : ℚ) * w := by
        have := le_numBins_mul hpos hw
        rw [← hN] at this
        linarith
      exact histBinMem_count_one hw (numBins_pos hpos hw) hx0 hxn
    rw [hcount]
    have : (t0 :: rest).length = ts.length := by
      rw [← hS]
      exact (sortTs_perm ts).length_eq
    rw [this]

/-! ### C4: undefined RTT bins -/

lemma values_by_time_bin_getElem (sorted : List (ℚ × ℚ)) (t0 w : ℚ) (n j : ℕ)
    (hj : j < n) :
    (values_by_time_bin sorted t0 w n)[j]? =
      some ((sorted.filter
        (fun p => digitize t0 w (n + 1) p.1 = j + 1)).map Prod.snd) := by
  unfold values_by_time_bin
  rw [List.getElem?_map, List.getElem?_range hj]
  rfl

lemma rtt_bin_none_iff (rows : List (ℚ × ℚ)) (w s t1 : ℚ) (p0 : ℚ × ℚ)
    (rest : List (ℚ × ℚ)) (j : ℕ)
    (hS : sortByTime rows = p0 :: rest)
    (hT : ((p0 :: rest).getLast (List.cons_ne_nil _ _)).1 = t1)
    (hpos : 0 < t1 - p0.1) (hw : 0 < w)
    (hj : j < numBins (t1 - p0.1) w) :
    ((calculate_tcp_rtt rows w s).2)[j]? = some none ↔
      ∀ p ∈ rows, ¬ (p0.1 + (j : ℚ) * w ≤ p.1 ∧ p.1 < p0.1 + ((j : ℚ) + 1) * w) := by
  have hsorted : (p0 :: rest).Sorted timeLe := hS ▸ sortByTime_sorted rows
  rw [calcRTT_regular hS hT rfl hpos]
  rw [List.getElem?_map, values_by_time_bin_getElem (p0 :: rest) p0.1 w _ j hj]
  simp only [Option.map_some', Option.some.injEq]
  by_cases hemp : ((p0 :: rest).filter
      (fun p => digitize p0.1 w (numBins (t1 - p0.1) w + 1) p.1 = j + 1)).map Prod.snd = []
  · rw [hemp]
    simp only [List.isEmpty_nil, if_pos]
    constructor
    · intro _ p hp hint
      have hp' : p ∈ p0 :: rest := by
        rw [← hS]
        exact mem_sortByTime.mpr hp
      have ht0p : p0.1 ≤ p.1 := by
        have : (0 : ℚ) ≤ (j : ℚ) * w := by positivity
        linarith [hint.1]
      have hfloor : ⌊(p.1 - p0.1) / w⌋ = (j : ℤ) := (floor_bin_iff hw (j : ℤ)).mp
        ⟨by push_cast; linarith [hint.1], by push_cast; linarith [hint.2]⟩
      have hdig : digitize p0.1 w (numBins (t1 - p0.1) w + 1) p.1 = j + 1 :=
        (digitize_eq_iff hw ht0p hj).mpr hfloor
      have hmemf : p ∈ (p0 :: rest).filter
          (fun q => decide (digitize p0.1 w (numBins (t1 - p0.1) w + 1) q.1 = j + 1)) :=
        List.mem_filter.mpr ⟨hp', decide_eq_true hdig⟩
      rw [List.map_eq_nil_iff] at hemp
      rw [hemp] at hmemf
      exact absurd hmemf (List.not_mem_nil p)
    · intro _
      trivial
  · have hemp' : (((p0 :: rest).filter
        (fun p => digitize p0.1 w (numBins (t1 - p0.1) w + 1) p.1 = j + 1)).map
          Prod.snd).isEmpty = false := by
      rw [List.isEmpty_eq_false]
      exact hemp
    rw [hemp']
    simp only [Bool.false_eq_true, if_false]
    constructor
    · intro h
      exact absurd h (by simp)
    · intro hall
      exfalso
      rw [List.map_eq_nil_iff] at hemp
      obtain ⟨p, hpmem⟩ := List.exists_mem_of_ne_nil _ hemp
      have hpin := List.mem_filter.mp hpmem
      have hp' : p ∈ rows := mem_sortByTime.mp (hS ▸ hpin.1)
      have ht0p : p0.1 ≤ p.1 := sortedTime_head_le hsorted p hpin.1
      have hdig : digitize p0.1 w (numBins (t1 - p0.1) w + 1) p.1 = j + 1 := by
        simpa using hpin.2
      have hfloor := (digitize_eq_iff hw ht0p hj).mp hdig
      have hint := (floor_bin_iff hw (j : ℤ)).mpr hfloor
      exact hall p hp' ⟨by push_cast at hint ⊢; linarith [hint.1],
        by push_cast at hint ⊢; linarith [hint.2]⟩

/-- C4: in the RTT series, a bin holds `none` (the undefined marker, distinct
from `some 0`) exactly when no sample timestamp falls in that bin's half-open
interval; and the summary statistics mean/min/max/median of
`prepare_rtt_data` are insensitive to undefined bins — dropping an undefined
bin from the series never changes them, so they are computed over the
defined bins only. -/
theorem rtt_undefined_bins (rows : List (ℚ × ℚ)) (w s t1 : ℚ) (p0 : ℚ × ℚ)
    (rest : List (ℚ × ℚ)) (j : ℕ)
    (hS : sortByTime rows = p0 :: rest)
    (hT : ((p0 :: rest).getLast (List.cons_ne_nil _ _)).1 = t1)
    (hpos : 0 < t1 - p0.1) (hw : 0 < w)
    (hj : j < numBins (t1 - p0.1) w) :
    (((calculate_tcp_rtt rows w s).2)[j]? = some none ↔
      ∀ p ∈ rows, ¬ (p0.1 + (j : ℚ) * w ≤ p.1 ∧ p.1 < p0.1 + ((j : ℚ) + 1) * w)) ∧
    (∀ q : ℚ, (some q : Option ℚ) ≠ none) ∧
    (∀ (times : List ℚ) (l1 l2 : List (Option ℚ)),
      ((prepare_rtt_file times (l1 ++ none :: l2)).map
        (fun i => (i.avg_rtt, i.min_rtt, i.max_rtt, i.median_rtt)))
      = ((prepare_rtt_file times (l1 ++ l2)).map
        (fun i => (i.avg_rtt, i.min_rtt, i.max_rtt, i.median_rtt)))) := by
  refine ⟨rtt_bin_none_iff rows w s t1 p0 rest j hS hT hpos hw hj,
    fun q => by simp, ?_⟩
  intro times l1 l2
  have hfm : (l1 ++ none :: l2).filterMap (fun x => id x)
      = (l1 ++ l2).filterMap (fun x => id x) := by
    simp [List.filterMap_append]
  unfold prepare_rtt_file
  by_cases ht : times.isEmpty
  · simp [ht]
  · simp only [ht, Bool.false_eq_true, if_false]
    rw [show (l1 ++ none :: l2).filterMap id = (l1 ++ l2).filterMap id by
      simpa using hfm]
    split_ifs <;> rfl

/-! ### C2: the generated bins and the sample assignment -/

lemma floor_edge (t0 w : ℚ) (n : ℕ) (hw : 0 < w) :
    ⌊((t0 + (n : ℚ) * w) - t0) / w⌋ = (n : ℤ) := by
  have h : ((t0 + (n : ℚ) * w) - t0) / w = (n : ℚ) := by
    field_simp
  rw [h]
  exact_mod_cast Int.floor_natCast n

/-- C2 (amended): with a positive span, bins `[t0 + k·w, t0 + (k+1)·w)` are
generated exactly for the `k` whose bin start lies strictly below `t1` (not
"until the start exceeds `t1`"), for all three metric kinds.  Every sample
strictly below the final edge `t0 + n·w` is assigned to the unique bin
containing its timestamp.  A sample at exactly the final edge — the latest
sample, possible only when the span is a multiple of `w` — is assigned to
the final (right-closed) histogram bin by the packet-rate binning, but to no
digitize group by the RTT and throughput binning. -/
theorem binning_rule_amended (ts : List ℚ) (w s t0 t1 : ℚ) (rest : List ℚ) (n : ℕ)
    (hS : sortTs ts = t0 :: rest)
    (hT : (t0 :: rest).getLast (List.cons_ne_nil _ _) = t1)
    (hN : numBins (t1 - t0) w = n)
    (hpos : 0 < t1 - t0) (hw : 0 < w) :
    ((calculate_tcp_packets_per_second ts w s).1 = binOffsets w n ∧
      ∀ k : ℕ, k < n ↔ t0 + (k : ℚ) * w < t1) ∧
    (∀ (rows : List (ℚ × ℚ)) (q0 : ℚ × ℚ) (qrest : List (ℚ × ℚ)),
      sortByTime rows = q0 :: qrest → q0.1 = t0 →
      ((q0 :: qrest).getLast (List.cons_ne_nil _ _)).1 = t1 →
      (calculate_tcp_rtt rows w s).1 = binOffsets w n ∧
      (calculate_tcp_throughput rows w s).1 = binOffsets w n) ∧
    (∀ (x : ℚ) (i : ℕ), t0 ≤ x → x < t0 + (n : ℚ) * w → i < n →
      (histBinMem t0 w n i x = true ↔
        (t0 + (i : ℚ) * w ≤ x ∧ x < t0 + ((i : ℚ) + 1) * w))) ∧
    (histBinMem t0 w n (n - 1) (t0 + (n : ℚ) * w) = true ∧
      ∀ i : ℕ, i < n - 1 → histBinMem t0 w n i (t0 + (n : ℚ) * w) = false) ∧
    (∀ j : ℕ, j < n → digitize t0 w (n + 1) (t0 + (n : ℚ) * w) ≠ j + 1) := by
  have hn0 : 0 < n := hN ▸ numBins_pos hpos hw
  have hxedge : t0 ≤ t0 + (n : ℚ) * w := by
    have : (0 : ℚ) ≤ (n : ℚ) * w := by positivity
    linarith
  refine ⟨⟨?_, ?_⟩, ?_, ?_, ⟨?_, ?_⟩, ?_⟩
  · rw [calcPPS_regular hS hT hN hpos]
  · intro k
    rw [← hN, lt_numBins_iff hpos hw]
    constructor <;> intro <;> linarith
  · intro rows q0 qrest hS' hq0 hT'
    have hq : numBins (t1 - q0.1) w = n := by rw [hq0]; exact hN
    have hpos' : 0 < t1 - q0.1 := by rw [hq0]; exact hpos
    constructor
    · rw [calcRTT_regular hS' hT' hq hpos', hq0]
    · rw [calcThroughput_regular hS' hT' hq hpos', hq0]
  · intro x i hx0 hxn hi
    have hxn' : x ≤ t0 + (n : ℚ) * w := le_of_lt hxn
    rw [histBinMem_iff hw hi hxn']
    have hFlt : ⌊(x - t0) / w⌋ < (n : ℤ) := by
      rw [Int.floor_lt]
      rw [div_lt_iff₀ hw]
      push_cast
      linarith
    constructor
    · intro hmin
      have hFeq : ⌊(x - t0) / w⌋ = (i : ℤ) := by omega
      have hint := (floor_bin_iff hw (i : ℤ)).mpr hFeq
      push_cast at hint
      exact hint
    · intro hint
      have hint' : t0 + ((i : ℤ) : ℚ) * w ≤ x ∧ x < t0 + (((i : ℤ) : ℚ) + 1) * w := by
        push_cast
        exact hint
      have := (floor_bin_iff hw (i : ℤ)).mp hint'
      omega
  · rw [histBinMem_iff hw (by omega : n - 1 < n) (le_refl _), floor_edge t0 w n hw]
    have : ((n - 1 : ℕ) : ℤ) = (n : ℤ) - 1 := by omega
    omega
  · intro i hi
    have h := histBinMem_iff hw (by omega : i < n) (le_refl (t0 + (n : ℚ) * w))
    rw [floor_edge t0 w n hw] at h
    cases hB : histBinMem t0 w n i (t0 + (n : ℚ) * w) with
    | false => rfl
    | true => exact absurd (h.mp hB) (by omega)
  · intro j hj
    rw [digitize_eq hw (n + 1) hxedge, floor_edge t0 w n hw]
    omega

/-- C2 counterexample: for samples at t = 0 and t = 2 with bin width 1 the
spec's rule generates bins at offsets 0, 1, 2 (the start 2 does not exceed
t1 = 2) and assigns the latest sample to the bin [2, 3); the code generates
only two bins, and its RTT binning leaves the t = 2 sample in no bin at all
(the last bin is empty/undefined), while its packet-rate binning counts that
sample in the bin starting at offset 1. -/
theorem binning_rule_counterexample :
    specRttBinning [(0, 10), (2, 20)] 1 = ([0, 1, 2], [some 10, none, some 20]) ∧
    calculate_tcp_rtt [(0, 10), (2, 20)] 1 1 = ([0, 1], [some 10, none]) ∧
    calculate_tcp_packets_per_second [0, 2] 1 1 = ([0, 1], [1, 1]) := by
  have hn : numBins 2 1 = 2 := by
    unfold numBins numEdges
    rw [show ((2 : ℚ) + 1) / 1 = 3 by norm_num]
    rw [show ⌈(3 : ℚ)⌉ = 3 by rw [Int.ceil_eq_iff] <;> norm_num]
    rfl
  refine ⟨?_, ?_, ?_⟩
  · simp only [specRttBinning, sortByTime, List.insertionSort, List.orderedInsert, timeLe]
    norm_num [binOffsets, List.range_succ, List.filter_cons, List.filter_nil, listMean,
      decide_eq_true_eq, Bool.and_eq_true, show Int.toNat 2 = 2 from rfl,
      show ⌊(2 : ℚ) / 1⌋ = 2 by norm_num [Int.floor_eq_iff]]
  · simp only [calculate_tcp_rtt, sortByTime, List.insertionSort, List.orderedInsert, timeLe]
    norm_num [hn, values_by_time_bin, digitize, binOffsets, List.range_succ,
      List.filter_cons, List.filter_nil, List.countP_cons, List.countP_nil,
      decide_eq_true_eq]
  · simp only [calculate_tcp_packets_per_second, sortTs, List.insertionSort,
      List.orderedInsert]
    norm_num [hn, binOffsets, histBinMem, List.range_succ, List.countP_cons,
      List.countP_nil, decide_eq_true_eq, Bool.and_eq_true, Bool.or_eq_true]

/-! ### C9: empty input, skipping downstream -/

lemma shape_ne_nil {l : List ℚ} {w : ℚ}
    (h : l = [0] ∨ ∃ n : ℕ, 0 < n ∧ l = binOffsets w n) : l ≠ [] := by
  rcases h with h | ⟨n, hn, h⟩ <;> subst h
  · simp
  · intro hnil
    have hlen := binOffsets_length w n
    rw [hnil] at hlen
    simp at hlen
    omega

/-- C9: an empty extraction result yields the empty series `([], [])` for
every metric kind, while any non-empty input yields at least one bin (so the
empty series is distinct from the degenerate one-bin case); the summarizer
skips a file with an empty series and keeps processing the remaining files,
and the renderer skips the plot (no exception is modelled: every function is
total). -/
theorem empty_input_empty_series (ts : List ℚ) (rows frames : List (ℚ × ℚ))
    (w s : ℚ) (name : String)
    (entries : List (String × Option (List ℚ × List ℚ)))
    (hw : 0 < w) (hts : ts ≠ []) (hrows : rows ≠ []) (hframes : frames ≠ []) :
    calculate_tcp_packets_per_second [] w s = ([], []) ∧
    calculate_tcp_rtt [] w s = ([], []) ∧
    calculate_tcp_throughput [] w s = ([], []) ∧
    (calculate_tcp_packets_per_second ts w s).1 ≠ [] ∧
    (calculate_tcp_rtt rows w s).1 ≠ [] ∧
    (calculate_tcp_throughput frames w s).1 ≠ [] ∧
    prepare_packet_rate_data ((name, some ([], [])) :: entries) w
      = prepare_packet_rate_data entries w ∧
    plot_packet_rate_comparison [(name, some ([], []))] w = none := by
  refine ⟨calcPPS_empty rfl, calcRTT_empty rfl, calcThroughput_empty rfl,
    shape_ne_nil (offsets_shape_pps ts w s hw hts),
    shape_ne_nil (offsets_shape_rtt rows w s hw hrows),
    shape_ne_nil (offsets_shape_throughput frames w s hw hframes), ?_, ?_⟩
  · simp [prepare_packet_rate_data, prepare_pps_file]
  · simp [plot_packet_rate_comparison, prepare_packet_rate_data, prepare_pps_file]

/-! ### C10: zero duration in the degenerate case -/

/-- C10: for a file whose samples all share one timestamp the packet-rate
series is the single bin at offset 0, the duration recorded downstream
(`times[-1]`) is 0, and the renderer's normalized time axis computes
`0 / 0 * 100` for it — the divisor of `normalized_times` is the zero
duration, so normalized rendering is meaningful only when the duration is
positive. -/
theorem degenerate_normalization_divides_zero (ts : List ℚ) (w s c : ℚ)
    (hts : ts ≠ []) (hall : ∀ x ∈ ts, x = c) :
    (calculate_tcp_packets_per_second ts w s).1 = [0] ∧
    durationOf (calculate_tcp_packets_per_second ts w s).1 = 0 ∧
    normalized_times (calculate_tcp_packets_per_second ts w s).1
        (durationOf (calculate_tcp_packets_per_second ts w s).1)
      = [0 / 0 * 100] ∧
    (∀ pps : List ℚ,
      (prepare_pps_file (calculate_tcp_packets_per_second ts w s).1 pps w).map
        (fun i => i.duration) = some 0) := by
  have h1 := calcPPS_const ts w s c hts hall
  rw [h1]
  refine ⟨rfl, rfl, rfl, ?_⟩
  intro pps
  simp [prepare_pps_file, durationOf]

/-! ### Witnesses -/

lemma numBins_eval (d w : ℚ) (n : ℕ) (hw : 0 < w) (hn : 1 ≤ n)
    (h1 : ((n : ℚ) - 1) * w < d) (h2 : d ≤ (n : ℚ) * w) : numBins d w = n := by
  have hn1 : (1 : ℚ) ≤ (n : ℚ) := by exact_mod_cast hn
  have hd : 0 < d := by
    have hnn : (0 : ℚ) ≤ ((n : ℚ) - 1) * w := mul_nonneg (by linarith) hw.le
    linarith
  rw [numBins_eq hd hw]
  have hc : ⌈d / w⌉ = (n : ℤ) := by
    rw [Int.ceil_eq_iff]
    constructor
    · push_cast
      rw [lt_div_iff₀ hw]
      linarith
    · rw [div_le_iff₀ hw]
      push_cast
      linarith
  rw [hc]
  simp

theorem pps_count_conservation_witness :
    ((calculate_tcp_packets_per_second [0, 1/2, 6/5, 13/10, 29/10] 1 1).2.map
      (fun v => v * 1 * 1)).sum = (5 : ℚ) := by
  have h := pps_count_conservation [0, 1/2, 6/5, 13/10, 29/10] 1 1 (by norm_num)
    (by norm_num) (by norm_num) ⟨0, by simp, 1/2, by simp, by norm_num⟩
  rw [h]
  norm_num

theorem binning_rule_amended_witness :
    (calculate_tcp_packets_per_second [0, 2] 1 1).1 = binOffsets 1 2 ∧
    digitize 0 1 3 2 ≠ 1 := by
  have hS : sortTs [0, 2] = [0, 2] := by
    norm_num [sortTs, List.insertionSort, List.orderedInsert]
  have hT : ([0, 2] : List ℚ).getLast (List.cons_ne_nil _ _) = 2 := rfl
  have hN : numBins (2 - 0) 1 = 2 := by
    refine numBins_eval (2 - 0) 1 2 (by norm_num) (by norm_num) (by norm_num) (by norm_num)
  have h := binning_rule_amended [0, 2] 1 1 0 2 [2] 2 hS hT hN (by norm_num) (by norm_num)
  refine ⟨h.1.1, ?_⟩
  have hd := h.2.2.2.2 0 (by norm_num)
  norm_num at hd
  exact hd

theorem offsets_invariant_witness :
    (calculate_tcp_packets_per_second [0, 2] 1 1).1.Chain'
      (fun a b => a < b ∧ b = a + 1) :=
  (offsets_invariant [0, 2] [(0, 10)] [(0, 10)] 1 1 (by norm_num) (by simp)
    (by simp) (by simp)).1.2

theorem rtt_undefined_bins_witness :
    ((calculate_tcp_rtt [(0, 10), (5/2, 20)] 1 1).2)[1]? = some none := by
  have hS : sortByTime [(0, 10), (5/2, 20)] = [(0, 10), (5/2, 20)] := by
    norm_num [sortByTime, List.insertionSort, List.orderedInsert, timeLe]
  have hT : (([(0, 10), (5/2, 20)] : List (ℚ × ℚ)).getLast
      (List.cons_ne_nil _ _)).1 = 5/2 := rfl
  have hj : 1 < numBins (5/2 - ((0 : ℚ), (10 : ℚ)).1) 1 := by
    rw [show (5/2 - ((0 : ℚ), (10 : ℚ)).1 : ℚ) = 5/2 by norm_num]
    rw [numBins_eval (5/2) 1 3 (by norm_num) (by norm_num) (by norm_num) (by norm_num)]
    omega
  have h := rtt_undefined_bins [(0, 10), (5/2, 20)] 1 1 (5/2) (0, 10) [(5/2, 20)] 1
    hS hT (by norm_num) (by norm_num) hj
  refine h.1.mpr ?_
  intro p hp
  rcases List.mem_cons.mp hp with rfl | hp
  · norm_num
  · rcases List.mem_cons.mp hp with rfl | hp
    · norm_num
    · exact absurd hp (List.not_mem_nil p)

theorem degenerate_single_bin_witness :
    calculate_tcp_packets_per_second [3, 3] 1 1 = ([0], [2]) ∧
    calculate_tcp_rtt [(3, 10), (3, 20)] 1 1 = ([0], [some 15]) ∧
    calculate_tcp_throughput [(3, 100), (3, 200)] 1 1 = ([0], [2400]) := by
  have h := degenerate_single_bin [3, 3] [(3, 10), (3, 20)] [(3, 100), (3, 200)] 1 1 3
    (by simp) (by intro x hx; rcases List.mem_cons.mp hx with rfl | hx; exacts [rfl, by simpa using hx])
    (by simp) (by intro p hp; rcases List.mem_cons.mp hp with rfl | hp; exacts [rfl, by simp at hp; rw [hp]])
    (by simp) (by intro p hp; rcases List.mem_cons.mp hp with rfl | hp; exacts [rfl, by simp at hp; rw [hp]])
  obtain ⟨h1, h2, h3⟩ := h
  refine ⟨?_, ?_, ?_⟩
  · rw [h1]
    norm_num
  · rw [h2]
    norm_num
  · rw [h3]
    norm_num

theorem empty_input_empty_series_witness :
    calculate_tcp_packets_per_second ([] : List ℚ) 1 1 = ([], []) ∧
    (calculate_tcp_packets_per_second [(3 : ℚ)] 1 1).1 ≠ [] ∧
    plot_packet_rate_comparison [("a", some ([], []))] 1 = none := by
  have h := empty_input_empty_series [3] [(3, 10)] [(3, 10)] 1 1 "a" []
    (by norm_num) (by simp) (by simp) (by simp)
  exact ⟨h.1, h.2.2.2.1, h.2.2.2.2.2.2.2⟩

theorem degenerate_normalization_witness :
    durationOf (calculate_tcp_packets_per_second [3, 3] 1 1).1 = 0 :=
  (degenerate_normalization_divides_zero [3, 3] 1 1 3 (by simp)
    (by intro x hx; rcases List.mem_cons.mp hx with rfl | hx; exacts [rfl, by simpa using hx])).2.1

end DkmAnalysis
